import Mathlib

set_option maxRecDepth 10000

/-!
Verification of `scripts/backfill-prepare.py` (AgentSense backfill preprocessor).

Strings are modelled as `List Char` (Python `len` counts code points, which
matches `List.length` of the character list).  Python `str.strip()` is modelled
over the ASCII whitespace characters; the Unicode-only space classes do not
occur in any input considered here.  The two scanning loops of the source that
consume a variable number of characters per step (`re.sub` substitution and the
newline-run collapsing) are written with an explicit fuel argument initialised
to the input length, so that every definition is structurally recursive and
kernel-computable; the fuel never runs out because each step consumes at least
one character.
-/

namespace Backfill

/-- A Python string, as its list of code points. -/
abbrev Str := List Char

/-- `MIN_MSG_LEN = 80` from the source. -/
def MIN_MSG_LEN : Nat := 80

/-- `CHUNK_SIZE = 6000` from the source. -/
def CHUNK_SIZE : Nat := 6000

/-- The newline character. -/
def nlChar : Char := '\n'

/-- The left-brace character (`chr 123`). -/
def lbraceChar : Char := Char.ofNat 123

/-- The right-brace character (`chr 125`). -/
def rbraceChar : Char := Char.ofNat 125

/-- ASCII whitespace, as stripped by Python `str.strip()`. -/
def isWS (c : Char) : Bool :=
  c == ' ' || c == '\t' || c == '\n' || c == '\r' || c == Char.ofNat 11 || c == Char.ofNat 12

/-- Python `text.strip()`: drop whitespace from both ends. -/
def strip (t : Str) : Str :=
  ((t.dropWhile isWS).reverse.dropWhile isWS).reverse

/-- Boolean prefix test (Python `str.startswith`, and the building block of
substring search). -/
def isPre : Str → Str → Bool
  | [], _ => true
  | _ :: _, [] => false
  | a :: as, b :: bs => a == b && isPre as bs

/-- Python `pat in s`: substring occurrence test. -/
def containsSub (pat : Str) : Str → Bool
  | [] => pat.isEmpty
  | s@(_ :: rest) => isPre pat s || containsSub pat rest

/-- The paragraph separator `"\n\n"`. -/
def nn : Str := [nlChar, nlChar]

/-- Python `sep.join(parts)`. -/
def joinWith (sep : Str) : List Str → Str
  | [] => []
  | [p] => p
  | p :: ps => p ++ sep ++ joinWith sep ps

/-- Python `text.split("\n\n")`: split on non-overlapping occurrences of the
double newline, scanning left to right. -/
def splitParas : Str → List Str
  | [] => [[]]
  | [c] => [[c]]
  | c :: d :: rest =>
    if c = nlChar ∧ d = nlChar then
      [] :: splitParas rest
    else
      match splitParas (d :: rest) with
      | [] => [[c]]
      | p :: ps => (c :: p) :: ps

/-- The paragraph-accumulation loop of `chunk_text` (source lines 76-90).
`current` is the buffer being accumulated; a flush emits `current.strip()`.
The final buffer is emitted only when its stripped form is non-empty. -/
def chunkLoop (chunk_size : Nat) : Str → List Str → List Str
  | current, [] => if strip current = [] then [] else [strip current]
  | current, para :: rest =>
    if chunk_size < current.length + para.length + 2 ∧ current ≠ [] then
      strip current :: chunkLoop chunk_size para rest
    else
      chunkLoop chunk_size (if current = [] then para else current ++ nn ++ para) rest

/-- `chunk_text(text, source, chunk_size)` from the source (lines 71-90). -/
def chunk_text (text source : Str) (chunk_size : Nat) : List (Str × Str) :=
  if text.length ≤ chunk_size then [(text, source)]
  else (chunkLoop chunk_size [] (splitParas text)).map (fun c => (c, source))

/-- The opening tag `"<knowledge-graph-context>"`. -/
def kgcOpen : Str := "<knowledge-graph-context>".toList

/-- The closing tag `"</knowledge-graph-context>"`. -/
def kgcClose : Str := "</knowledge-graph-context>".toList

/-- The opening tag `"<function_results>"`. -/
def frOpen : Str := "<function_results>".toList

/-- The closing tag `"</function_results>"`. -/
def frClose : Str := "</function_results>".toList

/-- The replacement `"[tool output]"` for tool-result blocks. -/
def toolOutputRepl : Str := "[tool output]".toList

/-- The literal head of the conversation-metadata regex:
three backticks, `json`, a newline and an opening brace. -/
def jsonOpen : Str := "```json\n\x7b".toList

/-- The literal tail after the closing brace of the metadata regex:
a newline and three backticks. -/
def jsonClose : Str := "\n```".toList

/-- The marker `'"toolCallId"'` (quotes included). -/
def toolCallIdKey : Str := "\"toolCallId\"".toList

/-- The marker `'"message_id"'` (quotes included). -/
def msgIdKey : Str := "\"message_id\"".toList

/-- The sentinel `"NO_REPLY"`. -/
def noReplyStr : Str := "NO_REPLY".toList

/-- The sentinel `"HEARTBEAT_OK"`. -/
def heartbeatStr : Str := "HEARTBEAT_OK".toList

/-- Index just past the first occurrence of `pat` in the scanned string
(`none` when `pat` does not occur).  This is where a non-greedy `.*?pat`
ends its match. -/
def firstOccEnd (pat : Str) : Str → Option Nat
  | [] => none
  | s@(_ :: rest) =>
    if isPre pat s then some pat.length
    else (firstOccEnd pat rest).map (· + 1)

/-- Index of the first occurrence of a character. -/
def firstIdxOf (ch : Char) : Str → Option Nat
  | [] => none
  | c :: rest => if c = ch then some 0 else (firstIdxOf ch rest).map (· + 1)

/-- Matcher for `re.sub(r'OPEN.*?CLOSE', …, flags=DOTALL)` at the head of `t`:
the match requires the literal open tag and extends to the earliest closing
tag; returns the total number of characters matched. -/
def blockMatch (openT closeT : Str) (t : Str) : Option Nat :=
  if isPre openT t then
    (firstOccEnd closeT (t.drop openT.length)).map (fun j => openT.length + j)
  else none

/-- Matcher for the conversation-metadata regex
three-backticks `json\n{[^}]*"message_id"[^}]*}\n` three-backticks
at the head of `t`.  Because both bracket classes exclude `}`, the brace
matched by the regex is forcibly the first `}` after the literal head, the
`"message_id"` key must occur before it, and `\n`-three-backticks must follow
it; returns the total number of characters matched. -/
def jsonMetaMatch (t : Str) : Option Nat :=
  if isPre jsonOpen t then
    match firstIdxOf rbraceChar (t.drop jsonOpen.length) with
    | none => none
    | some j =>
      if containsSub msgIdKey ((t.drop jsonOpen.length).take j)
          ∧ isPre jsonClose ((t.drop jsonOpen.length).drop (j + 1)) then
        some (jsonOpen.length + j + 1 + jsonClose.length)
      else none
  else none

/-- Driver for `re.sub` with literal-headed patterns: scan left to right; on a
match consume it, emit the replacement, and continue after the match; otherwise
keep one character and continue.  All matchers used return at least 1, so the
fuel (initialised to the length) never runs out and `rest.drop (k - 1)` is the
text after the match. -/
def reSubAux (m : Str → Option Nat) (repl : Str) : Nat → Str → Str
  | _, [] => []
  | 0, t => t
  | fuel + 1, c :: rest =>
    match m (c :: rest) with
    | some k => repl ++ reSubAux m repl fuel (rest.drop (k - 1))
    | none => c :: reSubAux m repl fuel rest

/-- `re.sub(pattern, repl, text)` for the patterns of `clean_text`. -/
def reSub (m : Str → Option Nat) (repl : Str) (t : Str) : Str :=
  reSubAux m repl t.length t

/-- One step of `re.sub(r'\n{3,}', '\n\n', text)`: at a run of three or more
newlines, the greedy match consumes the whole run and is replaced by exactly
two newlines.  Fuel as in `reSubAux`. -/
def collapseAux : Nat → Str → Str
  | _, [] => []
  | 0, t => t
  | fuel + 1, c :: rest =>
    if c = nlChar ∧ rest.take 2 = [nlChar, nlChar] then
      nlChar :: nlChar :: collapseAux fuel (rest.dropWhile (· = nlChar))
    else c :: collapseAux fuel rest

/-- `re.sub(r'\n{3,}', '\n\n', text)` from `clean_text`. -/
def collapse (t : Str) : Str := collapseAux t.length t

/-- `clean_text(text)` from the source (lines 58-68): remove
knowledge-graph-context blocks, remove conversation-metadata JSON blocks,
replace tool-result blocks with `"[tool output]"`, collapse newline runs,
and strip. -/
def clean_text (text : Str) : Str :=
  let t1 := reSub (blockMatch kgcOpen kgcClose) [] text
  let t2 := reSub jsonMetaMatch [] t1
  let t3 := reSub (blockMatch frOpen frClose) toolOutputRepl t2
  strip (collapse t3)

/-- `is_noise(text)` from the source (lines 44-55). -/
def is_noise (text : Str) : Bool :=
  if text.length < MIN_MSG_LEN then true
  else if isPre [lbraceChar] (strip text) && containsSub toolCallIdKey text then true
  else if containsSub kgcOpen (text.take 100) then true
  else if strip text = noReplyStr ∨ strip text = heartbeatStr then true
  else false

/-- One item of a structured message content list: a dict with
`type == "text"` carries its `text` field; any other item is ignored. -/
inductive ContentItem where
  | text (s : Str)
  | other
deriving DecidableEq

/-- Message content: a plain string, a list of typed parts, or anything
else (which extracts to the empty string). -/
inductive Content where
  | str (s : Str)
  | list (items : List ContentItem)
  | other
deriving DecidableEq

/-- A parsed session-log message: its `role` and `content` fields. -/
structure Msg where
  role : Str
  content : Content
deriving DecidableEq

/-- `extract_text_from_content(content)` from the source (lines 30-41):
a string is returned as is; a list contributes its `text`-typed items
joined by a newline; anything else yields the empty string. -/
def extract_text_from_content : Content → Str
  | .str s => s
  | .list items =>
      joinWith [nlChar]
        (items.filterMap fun i => match i with | .text s => some s | .other => none)
  | .other => []

/-- The role string `"user"`. -/
def userRole : Str := "user".toList

/-- The role string `"assistant"`. -/
def assistantRole : Str := "assistant".toList

/-- The per-message body of the loop in `process_session_file` (source lines
136-150): keep only `user`/`assistant` messages, drop noise (judged on the raw
extracted text), clean, and keep only messages whose cleaned text still has
length at least `MIN_MSG_LEN`, labelled with their role. -/
def msgStep (m : Msg) : Option Str :=
  if m.role ≠ userRole ∧ m.role ≠ assistantRole then none
  else if is_noise (extract_text_from_content m.content) then none
  else if MIN_MSG_LEN ≤ (clean_text (extract_text_from_content m.content)).length then
    some ((if m.role = userRole then "[User]: ".toList else "[Assistant]: ".toList)
      ++ clean_text (extract_text_from_content m.content))
  else none

/-- The provenance prefix `"session:"`. -/
def sessionPrefix : Str := "session:".toList

/-- `process_session_file(filepath)` from the source (lines 125-163).  A line
is `none` when its JSON fails to parse (such lines are skipped); otherwise it
is the resolved message object.  Retained messages are joined by a blank line
and chunked under the session provenance. -/
def process_session_file (lines : List (Option Msg)) (basename : Str) (chunk_size : Nat) :
    List (Str × Str) :=
  let messages := lines.filterMap fun l => l.bind msgStep
  if messages = [] then []
  else chunk_text (joinWith nn messages) (sessionPrefix ++ basename) chunk_size

/-- The provenance prefix `"memory:"`. -/
def memoryPrefix : Str := "memory:".toList

/-- The per-file body of `process_memory_files` (source lines 110-120): read
the file (`none` models a read error, which is logged and skipped), skip files
whose stripped raw text is shorter than `MIN_MSG_LEN`, otherwise clean and
chunk under the memory provenance.  `relP` models `os.path.relpath` from the
memory directory. -/
def fileOut (readF : Str → Option Str) (relP : Str → Str) (chunk_size : Nat) (fp : Str) :
    List (Str × Str) :=
  match readF fp with
  | none => []
  | some text =>
    if (strip text).length < MIN_MSG_LEN then []
    else chunk_text (clean_text text) (memoryPrefix ++ relP fp) chunk_size

/-- The double loop of `process_memory_files` (source lines 103-120) over the
concatenated glob results, with its `seen_files` set: a path already seen is
skipped, otherwise it is marked seen and processed. -/
def pmfChunks (readF : Str → Option Str) (relP : Str → Str) (chunk_size : Nat) :
    List Str → List Str → List (Str × Str)
  | _, [] => []
  | seen, fp :: rest =>
    if fp ∈ seen then pmfChunks readF relP chunk_size seen rest
    else fileOut readF relP chunk_size fp ++ pmfChunks readF relP chunk_size (fp :: seen) rest

/-- The list of files actually processed by the loop of
`process_memory_files` (those that pass the `seen_files` check), in order. -/
def pmfProcessed : List Str → List Str → List Str
  | _, [] => []
  | seen, fp :: rest =>
    if fp ∈ seen then pmfProcessed seen rest
    else fp :: pmfProcessed (fp :: seen) rest

/-- `process_memory_files()` from the source (lines 93-122), over the lists of
paths returned by the four glob patterns. -/
def process_memory_files (globResults : List (List Str))
    (readF : Str → Option Str) (relP : Str → Str) (chunk_size : Nat) : List (Str × Str) :=
  pmfChunks readF relP chunk_size [] globResults.flatten

/-- The insertion loop of `insert_observations` (source lines 199-213, the
non-dry-run path).  `execOk i` tells whether the `db.execute` call for the
`i`-th chunk succeeds; a raised exception is caught, logged and the loop
continues, so the counter advances exactly on successful inserts. -/
def insertGo (execOk : Nat → Bool) : Nat → Nat → List (Str × Str) → Nat
  | _, inserted, [] => inserted
  | i, inserted, _ :: rest =>
    insertGo execOk (i + 1) (if execOk i then inserted + 1 else inserted) rest

/-- The final success count reported by `insert_observations(chunks)`. -/
def insert_observations (chunks : List (Str × Str)) (execOk : Nat → Bool) : Nat :=
  insertGo execOk 0 0 chunks

end Backfill

namespace Backfill

/-! ### Substring-search lemmas -/

theorem isPre_nil (l : Str) : isPre [] l = true := by
  cases l <;> rfl

theorem eq_nil_of_isPre_nil {p : Str} (h : isPre p [] = true) : p = [] := by
  cases p with
  | nil => rfl
  | cons a as => simp [isPre] at h

theorem isPre_cons_iff {a b : Char} {as bs : Str} :
    isPre (a :: as) (b :: bs) = true ↔ a = b ∧ isPre as bs = true := by
  simp [isPre, Bool.and_eq_true, beq_iff_eq]

theorem isPre_of_take {p l : Str} {n : Nat} (h : isPre p (l.take n) = true) :
    isPre p l = true := by
  induction p generalizing l n with
  | nil => exact isPre_nil l
  | cons a as ih =>
    cases l with
    | nil => simp [isPre] at h
    | cons b bs =>
      cases n with
      | zero => simp [isPre] at h
      | succ m =>
        simp only [List.take_succ_cons] at h
        rcases isPre_cons_iff.mp h with ⟨hab, h2⟩
        exact isPre_cons_iff.mpr ⟨hab, ih h2⟩

theorem isPre_append_right {p l : Str} (r : Str) (h : isPre p l = true) :
    isPre p (l ++ r) = true := by
  induction p generalizing l with
  | nil => exact isPre_nil _
  | cons a as ih =>
    cases l with
    | nil => simp [isPre] at h
    | cons b bs =>
      rcases isPre_cons_iff.mp h with ⟨hab, h2⟩
      exact isPre_cons_iff.mpr ⟨hab, ih h2⟩

theorem isPre_iff_prefix {p l : Str} : isPre p l = true ↔ p <+: l := by
  induction p generalizing l with
  | nil => simp [isPre_nil]
  | cons a as ih =>
    cases l with
    | nil => simp [isPre]
    | cons b bs =>
      rw [isPre_cons_iff, List.cons_prefix_cons]
      exact and_congr Iff.rfl ih

theorem containsSub_iff_exists_drop {p l : Str} :
    containsSub p l = true ↔ ∃ n, isPre p (l.drop n) = true := by
  induction l with
  | nil =>
    simp only [containsSub, List.isEmpty_iff, List.drop_nil]
    constructor
    · intro h; exact ⟨0, by simp [h, isPre_nil]⟩
    · rintro ⟨n, hn⟩; exact eq_nil_of_isPre_nil hn
  | cons c rest ih =>
    simp only [containsSub, Bool.or_eq_true, ih]
    constructor
    · rintro (h | ⟨m, hm⟩)
      · exact ⟨0, h⟩
      · exact ⟨m + 1, hm⟩
    · rintro ⟨n, hn⟩
      cases n with
      | zero => exact Or.inl hn
      | succ m => exact Or.inr ⟨m, hn⟩

theorem containsSub_of_isPre_drop {p l : Str} (n : Nat) (h : isPre p (l.drop n) = true) :
    containsSub p l = true :=
  containsSub_iff_exists_drop.mpr ⟨n, h⟩

theorem containsSub_nil_pat (l : Str) : containsSub [] l = true := by
  cases l <;> simp [containsSub, isPre_nil]

theorem containsSub_cons {p : Str} (c : Char) {l : Str} (h : containsSub p l = true) :
    containsSub p (c :: l) = true := by
  simp [containsSub, h]

theorem containsSub_infix_mono {p s t : Str} (hst : s <:+: t)
    (h : containsSub p s = true) : containsSub p t = true := by
  rcases containsSub_iff_exists_drop.mp h with ⟨n, hn⟩
  rcases hst with ⟨u, v, rfl⟩
  by_cases hnil : s.drop n = []
  · rw [hnil] at hn
    rw [eq_nil_of_isPre_nil hn]
    exact containsSub_nil_pat _
  · have hns : n ≤ s.length := by
      by_contra hlt
      exact hnil (List.drop_eq_nil_of_le (Nat.le_of_not_le hlt))
    apply containsSub_of_isPre_drop (u.length + n)
    rw [List.append_assoc, ← List.drop_drop, List.drop_left]
    rw [List.drop_append_of_le_length hns]
    exact isPre_append_right v hn

theorem containsSub_take_mono {p l : Str} {m : Nat}
    (h : containsSub p (l.take m) = true) : containsSub p l = true :=
  containsSub_infix_mono (List.take_prefix m l).isInfix h

/-! ### Strip lemmas -/

theorem head?_dropWhile_false {p : Char → Bool} {l : Str} {a : Char}
    (h : (l.dropWhile p).head? = some a) : p a = false := by
  induction l with
  | nil => simp at h
  | cons c rest ih =>
    rw [List.dropWhile_cons] at h
    by_cases hc : p c
    · rw [if_pos hc] at h; exact ih h
    · rw [if_neg hc] at h
      simp only [List.head?_cons, Option.some.injEq] at h
      rw [← h]
      exact Bool.eq_false_iff.mpr hc

theorem dropWhile_eq_self_of_head {p : Char → Bool} {l : Str}
    (h : ∀ a, l.head? = some a → p a = false) : l.dropWhile p = l := by
  cases l with
  | nil => rfl
  | cons c rest =>
    rw [List.dropWhile_cons, if_neg]
    simp [h c rfl]

theorem strip_eq_self_of {t : Str}
    (h1 : ∀ a, t.head? = some a → isWS a = false)
    (h2 : ∀ a, t.getLast? = some a → isWS a = false) : strip t = t := by
  unfold strip
  rw [dropWhile_eq_self_of_head h1]
  rw [dropWhile_eq_self_of_head (fun a ha => h2 a (by rwa [List.head?_reverse] at ha))]
  exact List.reverse_reverse t

theorem strip_head?_false {t : Str} {a : Char} (h : (strip t).head? = some a) :
    isWS a = false := by
  unfold strip at h
  rw [List.head?_reverse] at h
  have hBne : (t.dropWhile isWS).reverse.dropWhile isWS ≠ [] := by
    intro hn; rw [hn] at h; simp at h
  obtain ⟨u, hu⟩ := List.dropWhile_suffix (l := (t.dropWhile isWS).reverse) isWS
  have : (t.dropWhile isWS).reverse.getLast? = some a := by
    rw [← hu, List.getLast?_append_of_ne_nil _ hBne]
    exact h
  rw [List.getLast?_reverse] at this
  exact head?_dropWhile_false this

theorem strip_getLast?_false {t : Str} {a : Char} (h : (strip t).getLast? = some a) :
    isWS a = false := by
  unfold strip at h
  rw [List.getLast?_reverse] at h
  exact head?_dropWhile_false h

theorem strip_idem (t : Str) : strip (strip t) = strip t :=
  strip_eq_self_of (fun _ ha => strip_head?_false ha) (fun _ ha => strip_getLast?_false ha)

theorem strip_contained (t : Str) : strip t <:+: t := by
  have h1 : (t.dropWhile isWS).reverse.dropWhile isWS <:+ (t.dropWhile isWS).reverse :=
    List.dropWhile_suffix _
  have h1' : (((t.dropWhile isWS).reverse.dropWhile isWS).reverse).reverse <:+
      (t.dropWhile isWS).reverse := by
    rwa [List.reverse_reverse]
  have h2 : ((t.dropWhile isWS).reverse.dropWhile isWS).reverse <+: t.dropWhile isWS :=
    List.reverse_suffix.mp h1'
  exact h2.isInfix.trans (List.dropWhile_suffix isWS).isInfix

theorem containsSub_strip_mono {p t : Str} (h : containsSub p (strip t) = true) :
    containsSub p t = true :=
  containsSub_infix_mono (strip_contained t) h

theorem head_not_ws_of_strip_eq_self {t : Str} {a : Char} (h : strip t = t)
    (ha : t.head? = some a) : isWS a = false :=
  strip_head?_false (by rw [h]; exact ha)

theorem getLast_not_ws_of_strip_eq_self {t : Str} {a : Char} (h : strip t = t)
    (ha : t.getLast? = some a) : isWS a = false :=
  strip_getLast?_false (by rw [h]; exact ha)

/-! ### Join and split lemmas -/

theorem joinWith_cons₂ (sep p q : Str) (ps : List Str) :
    joinWith sep (p :: q :: ps) = p ++ sep ++ joinWith sep (q :: ps) := rfl

theorem joinWith_cons_of_ne_nil (sep p : Str) {ps : List Str} (h : ps ≠ []) :
    joinWith sep (p :: ps) = p ++ sep ++ joinWith sep ps := by
  cases ps with
  | nil => exact absurd rfl h
  | cons q ps' => rfl

theorem joinWith_ne_nil (sep : Str) {p : Str} (hp : p ≠ []) (ps : List Str) :
    joinWith sep (p :: ps) ≠ [] := by
  cases ps with
  | nil => simpa [joinWith]
  | cons q ps' =>
    rw [joinWith_cons₂]
    simp [List.append_eq_nil, hp]

theorem head?_joinWith (sep : Str) {p : Str} (hp : p ≠ []) (ps : List Str) :
    (joinWith sep (p :: ps)).head? = p.head? := by
  cases ps with
  | nil => rfl
  | cons q ps' =>
    rw [joinWith_cons₂, List.append_assoc, List.head?_append]
    cases p with
    | nil => exact absurd rfl hp
    | cons a as => rfl

theorem getLast?_joinWith (sep : Str) : ∀ (ps : List Str) (p : Str),
    (∀ x ∈ p :: ps, x ≠ []) →
    ∃ q ∈ p :: ps, (joinWith sep (p :: ps)).getLast? = q.getLast? := by
  intro ps
  induction ps with
  | nil => exact fun p _ => ⟨p, by simp, rfl⟩
  | cons r ps' ih =>
    intro p hall
    obtain ⟨q, hq, hqe⟩ := ih r (fun x hx => hall x (List.mem_cons_of_mem p hx))
    refine ⟨q, List.mem_cons_of_mem p hq, ?_⟩
    rw [joinWith_cons₂, List.getLast?_append_of_ne_nil _ (joinWith_ne_nil sep (hall r (by simp)) ps')]
    exact hqe

theorem strip_joinWith_nn {ps : List Str} (hne : ps ≠ [])
    (h : ∀ x ∈ ps, strip x = x ∧ x ≠ []) : strip (joinWith nn ps) = joinWith nn ps := by
  cases ps with
  | nil => exact absurd rfl hne
  | cons p ps' =>
    apply strip_eq_self_of
    · intro a ha
      rw [head?_joinWith nn (h p (by simp)).2 ps'] at ha
      exact head_not_ws_of_strip_eq_self (h p (by simp)).1 ha
    · intro a ha
      obtain ⟨q, hq, hqe⟩ := getLast?_joinWith nn ps' p (fun x hx => (h x hx).2)
      rw [hqe] at ha
      exact getLast_not_ws_of_strip_eq_self (h q hq).1 ha

theorem length_le_joinWith {sep : Str} : ∀ {ps : List Str} {p : Str}, p ∈ ps →
    p.length ≤ (joinWith sep ps).length := by
  intro ps
  induction ps with
  | nil => intro p h; simp at h
  | cons q ps' ih =>
    intro p hp
    cases ps' with
    | nil =>
      simp only [List.mem_singleton] at hp
      subst hp
      exact Nat.le_refl _
    | cons r ps'' =>
      rw [joinWith_cons₂]
      rcases List.mem_cons.mp hp with rfl | h'
      · simp only [List.length_append]; omega
      · have := ih h'
        simp only [List.length_append]
        omega

theorem splitParas_pos {a b : Char} (rest : Str) (h : a = nlChar ∧ b = nlChar) :
    splitParas (a :: b :: rest) = [] :: splitParas rest := by
  simp only [splitParas, if_pos h]

theorem splitParas_neg {a b : Char} (rest : Str) (h : ¬(a = nlChar ∧ b = nlChar)) :
    splitParas (a :: b :: rest) =
      match splitParas (b :: rest) with
      | [] => [[a]]
      | p :: ps => (a :: p) :: ps := by
  simp only [splitParas, if_neg h]

theorem splitParas_ne_nil (t : Str) : splitParas t ≠ [] := by
  induction t using splitParas.induct with
  | case1 => simp [splitParas]
  | case2 c => simp [splitParas]
  | case3 a b rest h ih => rw [splitParas_pos rest h]; simp
  | case4 a b rest h hnil ih => rw [splitParas_neg rest h, hnil]; simp
  | case5 a b rest h p ps hm ih => rw [splitParas_neg rest h, hm]; simp

theorem joinWith_splitParas (t : Str) : joinWith nn (splitParas t) = t := by
  induction t using splitParas.induct with
  | case1 => rfl
  | case2 c => rfl
  | case3 a b rest h ih =>
    rw [splitParas_pos rest h]
    obtain ⟨p, ps, hps⟩ : ∃ p ps, splitParas rest = p :: ps := by
      cases hsp : splitParas rest with
      | nil => exact absurd hsp (splitParas_ne_nil rest)
      | cons p ps => exact ⟨p, ps, rfl⟩
    rw [hps] at ih ⊢
    rw [joinWith_cons₂, List.nil_append, ih, h.1, h.2]
    rfl
  | case4 a b rest h hnil ih => exact absurd hnil (splitParas_ne_nil _)
  | case5 a b rest h p ps hm ih =>
    rw [splitParas_neg rest h, hm]
    rw [hm] at ih
    cases ps with
    | nil =>
      simp only [joinWith] at ih ⊢
      rw [ih]
    | cons q ps' =>
      simp only [joinWith_cons₂] at ih ⊢
      rw [List.cons_append, List.cons_append, ih]

/-! ### Chunker lemmas -/

theorem strip_nil : strip ([] : Str) = [] := rfl

theorem strip_append_nn {a b : Str} (ha : strip a = a) (hane : a ≠ [])
    (hb : strip b = b) (hbne : b ≠ []) : strip (a ++ nn ++ b) = a ++ nn ++ b := by
  apply strip_eq_self_of
  · intro x hx
    rw [List.append_assoc, List.head?_append_of_ne_nil a hane] at hx
    exact head_not_ws_of_strip_eq_self ha hx
  · intro x hx
    rw [List.getLast?_append_of_ne_nil _ hbne] at hx
    exact getLast_not_ws_of_strip_eq_self hb hx

theorem append_nn_ne_nil (a b : Str) : a ++ nn ++ b ≠ [] := by
  simp [nn]

theorem chunkLoop_spec (k : Nat) : ∀ (ps : List Str) (cur : Str),
    (∀ p ∈ ps, strip p = p ∧ p ≠ [] ∧ p.length ≤ k) →
    strip cur = cur → cur.length ≤ k →
    (∀ c ∈ chunkLoop k cur ps, c.length ≤ k) ∧
    joinWith nn (chunkLoop k cur ps) = joinWith nn (if cur = [] then ps else cur :: ps) ∧
    ((cur = [] ∧ ps = []) ∨ chunkLoop k cur ps ≠ []) := by
  intro ps
  induction ps with
  | nil =>
    intro cur _ hcur hlen
    simp only [chunkLoop]
    by_cases hc : cur = []
    · subst hc
      rw [if_pos strip_nil, if_pos rfl]
      exact ⟨by simp, rfl, Or.inl ⟨rfl, by trivial⟩⟩
    · have hs : ¬ strip cur = [] := by rw [hcur]; exact hc
      rw [if_neg hs, if_neg hc, hcur]
      refine ⟨?_, rfl, Or.inr (by simp)⟩
      intro c hcm
      rw [List.mem_singleton] at hcm
      subst hcm
      exact hlen
  | cons p rest ih =>
    intro cur hps hcur hlen
    obtain ⟨hp1, hp2, hp3⟩ := hps p (by simp)
    have hrest : ∀ q ∈ rest, strip q = q ∧ q ≠ [] ∧ q.length ≤ k :=
      fun q hq => hps q (by simp [hq])
    simp only [chunkLoop]
    by_cases hbr : k < cur.length + p.length + 2 ∧ cur ≠ []
    · rw [if_pos hbr]
      obtain ⟨ih1, ih2, ih3⟩ := ih p hrest hp1 hp3
      have hne : chunkLoop k p rest ≠ [] := by
        rcases ih3 with ⟨hpe, _⟩ | h
        · exact absurd hpe hp2
        · exact h
      refine ⟨?_, ?_, Or.inr (by simp)⟩
      · intro c hc
        rcases List.mem_cons.mp hc with rfl | hc'
        · rw [hcur]; exact hlen
        · exact ih1 c hc'
      · rw [hcur, if_neg hbr.2]
        rw [joinWith_cons_of_ne_nil nn _ hne]
        rw [ih2, if_neg hp2, joinWith_cons₂]
    · rw [if_neg hbr]
      by_cases hc : cur = []
      · rw [if_pos hc, if_pos hc]
        obtain ⟨ih1, ih2, ih3⟩ := ih p hrest hp1 hp3
        refine ⟨ih1, ?_, ?_⟩
        · rw [ih2, if_neg hp2]
        · rcases ih3 with ⟨hpe, _⟩ | h
          · exact absurd hpe hp2
          · exact Or.inr h
      · rw [if_neg hc, if_neg hc]
        have hle : cur.length + p.length + 2 ≤ k := by
          rcases Nat.lt_or_ge k (cur.length + p.length + 2) with h | h
          · exact absurd ⟨h, hc⟩ hbr
          · exact h
        have hstrip' : strip (cur ++ nn ++ p) = cur ++ nn ++ p :=
          strip_append_nn hcur hc hp1 hp2
        have hlen' : (cur ++ nn ++ p).length ≤ k := by
          simp only [List.length_append, nn, List.length_cons, List.length_nil]
          omega
        obtain ⟨ih1, ih2, ih3⟩ := ih (cur ++ nn ++ p) hrest hstrip' hlen'
        refine ⟨ih1, ?_, ?_⟩
        · rw [ih2, if_neg (append_nn_ne_nil cur p)]
          cases rest with
          | nil =>
            show joinWith nn [cur ++ nn ++ p] = joinWith nn [cur, p]
            rw [joinWith_cons₂]
            rfl
          | cons r rest' =>
            rw [joinWith_cons₂, joinWith_cons₂, joinWith_cons₂]
            simp [List.append_assoc]
        · rcases ih3 with ⟨hpe, _⟩ | h
          · exact absurd hpe (append_nn_ne_nil cur p)
          · exact Or.inr h

theorem strip_text_of_paras {text : Str}
    (h : ∀ p ∈ splitParas text, strip p = p ∧ p ≠ []) : strip text = text := by
  have hj := strip_joinWith_nn (splitParas_ne_nil text) h
  rwa [joinWith_splitParas text] at hj

/-- C1 (amended): for input text whose double-newline paragraphs are each
non-empty, free of leading and trailing whitespace, and of length at most the
chunk limit, every emitted chunk has length at most the limit and the chunks,
rejoined by the paragraph separator, reproduce the trimmed input exactly. -/
theorem C1_chunk_reconstruction (text source : Str) (k : Nat)
    (h : ∀ p ∈ splitParas text, strip p = p ∧ p ≠ [] ∧ p.length ≤ k) :
    (∀ c ∈ (chunk_text text source k).map Prod.fst, c.length ≤ k) ∧
    joinWith nn ((chunk_text text source k).map Prod.fst) = strip text := by
  have hstrip : strip text = text :=
    strip_text_of_paras (fun p hp => ⟨(h p hp).1, (h p hp).2.1⟩)
  unfold chunk_text
  by_cases hle : text.length ≤ k
  · rw [if_pos hle]
    refine ⟨?_, ?_⟩
    · intro c hc
      simp only [List.map_cons, List.map_nil, List.mem_singleton] at hc
      subst hc
      exact hle
    · simp only [List.map_cons, List.map_nil, joinWith]
      exact hstrip.symm
  · rw [if_neg hle]
    obtain ⟨h1, h2, _⟩ := chunkLoop_spec k (splitParas text) [] h strip_nil (Nat.zero_le k)
    have hmap : ((chunkLoop k [] (splitParas text)).map (fun c => (c, source))).map Prod.fst
        = chunkLoop k [] (splitParas text) := by
      simp [Function.comp_def]
    rw [hmap]
    refine ⟨h1, ?_⟩
    rw [h2, if_pos rfl, joinWith_splitParas]
    exact hstrip.symm

/-- Witness for C1: a concrete two-paragraph input at limit 3. -/
theorem C1_witness :
    (∀ p ∈ splitParas "ab\n\ncd".toList, strip p = p ∧ p ≠ [] ∧ p.length ≤ 3) ∧
    (∀ c ∈ (chunk_text "ab\n\ncd".toList "m".toList 3).map Prod.fst, c.length ≤ 3) ∧
    joinWith nn ((chunk_text "ab\n\ncd".toList "m".toList 3).map Prod.fst) =
      strip "ab\n\ncd".toList :=
  ⟨by decide, C1_chunk_reconstruction "ab\n\ncd".toList "m".toList 3 (by decide)⟩

/-- Counterexample for C1 as stated: the input `" a"` is a single paragraph of
length 2, far below the limit, yet the emitted chunk is the untrimmed input,
so rejoining the chunks does not reproduce the trimmed input. -/
theorem C1_counterexample :
    (∀ p ∈ splitParas [' ', 'a'], p.length ≤ CHUNK_SIZE) ∧
    joinWith nn ((chunk_text [' ', 'a'] ['m'] CHUNK_SIZE).map Prod.fst) ≠ strip [' ', 'a'] := by
  decide

/-- C2 (amended): for input text of length at most the limit, `chunk_text`
returns exactly one chunk whose text is the input itself, unchanged (not
whitespace-trimmed). -/
theorem C2_single_chunk_untrimmed (text source : Str) (k : Nat) (h : text.length ≤ k) :
    chunk_text text source k = [(text, source)] := by
  unfold chunk_text
  rw [if_pos h]

/-- Witness for C2 at the concrete input `" a"`. -/
theorem C2_witness :
    ([' ', 'a'] : Str).length ≤ CHUNK_SIZE ∧
    chunk_text [' ', 'a'] ['m'] CHUNK_SIZE = [([' ', 'a'], ['m'])] :=
  ⟨by decide, C2_single_chunk_untrimmed [' ', 'a'] ['m'] CHUNK_SIZE (by decide)⟩

/-- Counterexample for C2 as stated: on the short input `" a"` the single
emitted chunk is not the whitespace-trimmed input. -/
theorem C2_counterexample :
    ([' ', 'a'] : Str).length ≤ CHUNK_SIZE ∧
    (chunk_text [' ', 'a'] ['m'] CHUNK_SIZE).map Prod.fst ≠ [strip [' ', 'a']] := by
  decide

theorem count_eq_zero_of_all_le {k : Nat} {P : Str} (hP : k < P.length) {L : List Str}
    (hL : ∀ c ∈ L, c.length ≤ k) : L.count P = 0 := by
  rw [List.count_eq_zero]
  intro hmem
  exact absurd (hL P hmem) (Nat.not_le_of_lt hP)

theorem chunkLoop_count_from_P (k : Nat) {P : Str} (hP : k < P.length) (hPs : strip P = P) :
    ∀ (psb : List Str), (∀ q ∈ psb, strip q = q ∧ q ≠ [] ∧ q.length ≤ k) →
    (chunkLoop k P psb).count P = 1 := by
  intro psb hpsb
  have hPne : P ≠ [] := by
    intro h
    rw [h] at hP
    simp at hP
  cases psb with
  | nil =>
    simp only [chunkLoop]
    rw [hPs, if_neg hPne]
    simp
  | cons q rest =>
    obtain ⟨hq1, hq2, hq3⟩ := hpsb q (by simp)
    simp only [chunkLoop]
    rw [if_pos ⟨by omega, hPne⟩, hPs, List.count_cons_self]
    have hrest : ∀ x ∈ rest, strip x = x ∧ x ≠ [] ∧ x.length ≤ k :=
      fun x hx => hpsb x (by simp [hx])
    obtain ⟨h1, _, _⟩ := chunkLoop_spec k rest q hrest hq1 hq3
    rw [count_eq_zero_of_all_le hP h1]

theorem chunkLoop_count_main (k : Nat) {P : Str} (hP : k < P.length) (hPs : strip P = P)
    {psb : List Str} (hpsb : ∀ q ∈ psb, strip q = q ∧ q ≠ [] ∧ q.length ≤ k) :
    ∀ (psa : List Str) (cur : Str),
    (∀ q ∈ psa, strip q = q ∧ q ≠ [] ∧ q.length ≤ k) →
    strip cur = cur → cur.length ≤ k →
    (chunkLoop k cur (psa ++ P :: psb)).count P = 1 := by
  have hPne : P ≠ [] := by
    intro h
    rw [h] at hP
    simp at hP
  intro psa
  induction psa with
  | nil =>
    intro cur _ hcur hlen
    simp only [List.nil_append, chunkLoop]
    by_cases hc : cur = []
    · rw [if_neg (by rintro ⟨_, hne⟩; exact hne hc), if_pos hc]
      exact chunkLoop_count_from_P k hP hPs psb hpsb
    · rw [if_pos ⟨by omega, hc⟩, hcur]
      have hne : P ≠ cur := by
        intro he
        rw [he] at hP
        omega
      rw [List.count_cons_of_ne hne]
      exact chunkLoop_count_from_P k hP hPs psb hpsb
  | cons a psa' ih =>
    intro cur hpsa hcur hlen
    obtain ⟨ha1, ha2, ha3⟩ := hpsa a (by simp)
    have hpsa' : ∀ q ∈ psa', strip q = q ∧ q ≠ [] ∧ q.length ≤ k :=
      fun q hq => hpsa q (by simp [hq])
    simp only [List.cons_append, chunkLoop]
    by_cases hbr : k < cur.length + a.length + 2 ∧ cur ≠ []
    · rw [if_pos hbr, hcur]
      have hne : P ≠ cur := by
        intro he
        rw [he] at hP
        omega
      rw [List.count_cons_of_ne hne]
      exact ih a hpsa' ha1 ha3
    · rw [if_neg hbr]
      by_cases hc : cur = []
      · rw [if_pos hc]
        exact ih a hpsa' ha1 ha3
      · rw [if_neg hc]
        have hle : cur.length + a.length + 2 ≤ k := by
          rcases Nat.lt_or_ge k (cur.length + a.length + 2) with hx | hx
          · exact absurd ⟨hx, hc⟩ hbr
          · exact hx
        refine ih (cur ++ nn ++ a) hpsa' (strip_append_nn hcur hc ha1 ha2) ?_
        simp only [List.length_append, nn, List.length_cons, List.length_nil]
        omega

/-- C3 (amended): for input text whose paragraphs are non-empty and free of
leading/trailing whitespace, with exactly the paragraph `P` exceeding the
limit, `P` is never split: it appears whole as exactly one emitted chunk; and
when it stands alone the whole text is emitted as that single oversized
chunk. -/
theorem C3_oversized_paragraph (text source : Str) (k : Nat) (psa psb : List Str) (P : Str)
    (hsplit : splitParas text = psa ++ P :: psb)
    (htrim : ∀ p ∈ splitParas text, strip p = p ∧ p ≠ [])
    (hsmall : ∀ p ∈ psa ++ psb, p.length ≤ k)
    (hP : k < P.length) :
    ((chunk_text text source k).map Prod.fst).count P = 1 ∧
    (psa = [] → psb = [] → chunk_text text source k = [(text, source)]) := by
  have hPmem : P ∈ splitParas text := by
    rw [hsplit]
    exact List.mem_append_right psa (by simp)
  have hPs : strip P = P := (htrim P hPmem).1
  have hlen : ¬ text.length ≤ k := by
    have h1 : P.length ≤ (joinWith nn (splitParas text)).length := length_le_joinWith hPmem
    rw [joinWith_splitParas] at h1
    omega
  have hpsb : ∀ q ∈ psb, strip q = q ∧ q ≠ [] ∧ q.length ≤ k := by
    intro q hq
    have hm : q ∈ splitParas text := by
      rw [hsplit]
      exact List.mem_append_right psa (by simp [hq])
    exact ⟨(htrim q hm).1, (htrim q hm).2, hsmall q (List.mem_append_right psa hq)⟩
  have hpsa : ∀ q ∈ psa, strip q = q ∧ q ≠ [] ∧ q.length ≤ k := by
    intro q hq
    have hm : q ∈ splitParas text := by
      rw [hsplit]
      exact List.mem_append_left _ hq
    exact ⟨(htrim q hm).1, (htrim q hm).2, hsmall q (List.mem_append_left psb hq)⟩
  constructor
  · unfold chunk_text
    rw [if_neg hlen]
    have hmap : ((chunkLoop k [] (splitParas text)).map (fun c => (c, source))).map Prod.fst
        = chunkLoop k [] (splitParas text) := by
      simp [Function.comp_def]
    rw [hmap, hsplit]
    exact chunkLoop_count_main k hP hPs hpsb psa [] hpsa strip_nil (Nat.zero_le k)
  · intro ha hb
    subst ha
    subst hb
    have htext : text = P := by
      have := joinWith_splitParas text
      rw [hsplit] at this
      simpa [joinWith] using this.symm
    have hPne : P ≠ [] := by
      intro h
      rw [h] at hP
      simp at hP
    have hloop : chunkLoop k [] [P] = [P] := by
      simp [chunkLoop, hPs, hPne]
    unfold chunk_text
    rw [if_neg hlen, hsplit]
    simp only [List.nil_append]
    rw [hloop, htext]
    rfl

/-- Witness for C3: a single six-character paragraph at limit 3. -/
theorem C3_witness :
    ((chunk_text "abcdef".toList "m".toList 3).map Prod.fst).count "abcdef".toList = 1 ∧
    chunk_text "abcdef".toList "m".toList 3 = [("abcdef".toList, "m".toList)] := by
  obtain ⟨h1, h2⟩ := C3_oversized_paragraph "abcdef".toList "m".toList 3 [] []
    "abcdef".toList (by decide) (by decide) (by decide) (by decide)
  exact ⟨h1, h2 rfl rfl⟩

/-- Counterexample for C3 as stated: a paragraph of seven spaces exceeds the
limit 5, yet `chunk_text` emits no chunk at all (the final buffer strips to
empty), so the oversized paragraph appears in no emitted chunk. -/
theorem C3_counterexample :
    splitParas (List.replicate 7 ' ') = [List.replicate 7 ' '] ∧
    5 < (List.replicate 7 ' ' : Str).length ∧
    chunk_text (List.replicate 7 ' ') ['m'] 5 = [] := by
  decide

/-! ### Chunk-loop stepping lemmas and split/append lemmas -/

theorem chunkLoop_cons_empty (k : Nat) (p : Str) (rest : List Str) :
    chunkLoop k [] (p :: rest) = chunkLoop k p rest := by
  simp [chunkLoop]

theorem chunkLoop_cons_flush (k : Nat) {cur : Str} (p : Str) (rest : List Str)
    (h : k < cur.length + p.length + 2) (hc : cur ≠ []) :
    chunkLoop k cur (p :: rest) = strip cur :: chunkLoop k p rest := by
  simp only [chunkLoop]
  rw [if_pos ⟨h, hc⟩]

theorem chunkLoop_cons_add (k : Nat) {cur : Str} (p : Str) (rest : List Str)
    (h : cur.length + p.length + 2 ≤ k) (hc : cur ≠ []) :
    chunkLoop k cur (p :: rest) = chunkLoop k (cur ++ nn ++ p) rest := by
  simp only [chunkLoop]
  rw [if_neg (by rintro ⟨h1, _⟩; omega), if_neg hc]

theorem chunkLoop_nil_of (k : Nat) {cur : Str} (h : strip cur = cur) (hc : cur ≠ []) :
    chunkLoop k cur [] = [cur] := by
  simp only [chunkLoop]
  rw [h, if_neg hc]

theorem splitParas_append_nn : ∀ (a t : Str), (∀ c ∈ a, c ≠ nlChar) →
    splitParas (a ++ nn ++ t) = a :: splitParas t := by
  intro a
  induction a with
  | nil =>
    intro t _
    exact splitParas_pos t ⟨rfl, rfl⟩
  | cons x a' ih =>
    intro t hx
    have hxnl : x ≠ nlChar := hx x (by simp)
    have hrest : ∀ c ∈ a', c ≠ nlChar := fun c hc => hx c (by simp [hc])
    cases a' with
    | nil =>
      show splitParas (x :: nlChar :: nlChar :: t) = [x] :: splitParas t
      rw [splitParas_neg _ (by rintro ⟨h1, _⟩; exact hxnl h1)]
      rw [splitParas_pos t ⟨rfl, rfl⟩]
    | cons y a'' =>
      have hy : ((y :: a'') ++ nn) ++ t = y :: ((a'' ++ nn) ++ t) := by simp
      show splitParas (x :: (((y :: a'') ++ nn) ++ t)) = (x :: y :: a'') :: splitParas t
      rw [hy, splitParas_neg _ (by rintro ⟨h1, _⟩; exact hxnl h1)]
      have hih := ih t hrest
      rw [hy] at hih
      rw [hih]

theorem splitParas_noNl : ∀ (a : Str), (∀ c ∈ a, c ≠ nlChar) → splitParas a = [a] := by
  intro a
  induction a using splitParas.induct with
  | case1 => intro _; rfl
  | case2 c => intro _; rfl
  | case3 x y rest h ih =>
    intro hall
    exact absurd h.1 (hall x (by simp))
  | case4 x y rest h hnil ih =>
    intro _
    exact absurd hnil (splitParas_ne_nil _)
  | case5 x y rest h p ps hm ih =>
    intro hall
    rw [splitParas_neg _ h, hm]
    have hih := ih (fun c hc => hall c (List.mem_cons_of_mem x hc))
    rw [hm] at hih
    rw [List.cons_eq_cons] at hih
    obtain ⟨hp, hps⟩ := hih
    subst hp
    subst hps
    rfl

theorem replicate_ne_nil_of_pos {n : Nat} {c : Char} (hn : 0 < n) :
    List.replicate n c ≠ [] := by
  intro h
  have hl := congrArg List.length h
  rw [List.length_replicate] at hl
  simp at hl
  omega

theorem strip_replicate {n : Nat} {c : Char} (hc : isWS c = false) :
    strip (List.replicate n c) = List.replicate n c := by
  apply strip_eq_self_of
  · intro a ha
    rw [List.head?_replicate] at ha
    by_cases hn : n = 0
    · rw [if_pos hn] at ha; cases ha
    · rw [if_neg hn] at ha
      exact Option.some.inj ha ▸ hc
  · intro a ha
    rw [List.getLast?_replicate] at ha
    by_cases hn : n = 0
    · rw [if_pos hn] at ha; cases ha
    · rw [if_neg hn] at ha
      exact Option.some.inj ha ▸ hc

theorem strip_mid_replicate {n m : Nat} {c d : Char} (hn : 0 < n) (hm : 0 < m)
    (hc : isWS c = false) (hd : isWS d = false) (mid : Str) :
    strip (List.replicate n c ++ mid ++ List.replicate m d)
      = List.replicate n c ++ mid ++ List.replicate m d := by
  apply strip_eq_self_of
  · intro a ha
    rw [List.append_assoc, List.head?_append_of_ne_nil _ (replicate_ne_nil_of_pos hn)] at ha
    rw [List.head?_replicate, if_neg (by omega)] at ha
    exact Option.some.inj ha ▸ hc
  · intro a ha
    rw [List.getLast?_append_of_ne_nil _ (replicate_ne_nil_of_pos hm)] at ha
    rw [List.getLast?_replicate, if_neg (by omega)] at ha
    exact Option.some.inj ha ▸ hd

theorem noNl_replicate {n : Nat} {c : Char} (hc : c ≠ nlChar) :
    ∀ x ∈ List.replicate n c, x ≠ nlChar :=
  fun _ hx => (List.eq_of_mem_replicate hx) ▸ hc

theorem chunk_text_three_replicates (n1 n2 n3 k : Nat) (c1 c2 c3 : Char) (source : Str)
    (h1 : 0 < n1) (h2 : 0 < n2) (h3 : 0 < n3)
    (hw1 : isWS c1 = false) (hw2 : isWS c2 = false) (hw3 : isWS c3 = false)
    (hnl1 : c1 ≠ nlChar) (hnl2 : c2 ≠ nlChar) (hnl3 : c3 ≠ nlChar)
    (hacc : n1 + n2 + 2 ≤ k) (hflush : k < n1 + n2 + n3 + 4) :
    chunk_text
        (List.replicate n1 c1 ++ nn ++ List.replicate n2 c2 ++ nn ++ List.replicate n3 c3)
        source k =
      [(List.replicate n1 c1 ++ nn ++ List.replicate n2 c2, source),
       (List.replicate n3 c3, source)] := by
  have hsplit : splitParas
      (List.replicate n1 c1 ++ nn ++ List.replicate n2 c2 ++ nn ++ List.replicate n3 c3)
      = [List.replicate n1 c1, List.replicate n2 c2, List.replicate n3 c3] := by
    have e1 : List.replicate n1 c1 ++ nn ++ List.replicate n2 c2 ++ nn ++ List.replicate n3 c3
        = List.replicate n1 c1 ++ nn
            ++ ((List.replicate n2 c2 ++ nn) ++ List.replicate n3 c3) := by
      simp [List.append_assoc]
    rw [e1, splitParas_append_nn _ _ (noNl_replicate hnl1),
      splitParas_append_nn _ _ (noNl_replicate hnl2), splitParas_noNl _ (noNl_replicate hnl3)]
  have htlen : (List.replicate n1 c1 ++ nn ++ List.replicate n2 c2 ++ nn
      ++ List.replicate n3 c3).length = n1 + n2 + n3 + 4 := by
    simp only [List.length_append, List.length_replicate, nn, List.length_cons, List.length_nil]
    omega
  unfold chunk_text
  rw [if_neg (by rw [htlen]; omega), hsplit]
  rw [chunkLoop_cons_empty]
  rw [chunkLoop_cons_add k _ _
    (by simp only [List.length_replicate]; omega) (replicate_ne_nil_of_pos h1)]
  rw [chunkLoop_cons_flush k _ _
    (by simp only [List.length_append, List.length_replicate, nn, List.length_cons,
      List.length_nil]; omega) (append_nn_ne_nil _ _)]
  rw [strip_mid_replicate h1 h2 hw1 hw2 nn]
  rw [chunkLoop_nil_of k (strip_replicate hw3) (replicate_ne_nil_of_pos h3)]
  rfl

/-- C6 (amended): three paragraphs of 2500 characters each, with the two-char
separators extra (7504 chars in total), at limit 6000, produce exactly two
chunks: paragraphs 1 and 2 joined by the separator (5002 chars: over 5000 and
under the limit), then paragraph 3 alone. -/
theorem C6_three_paragraph_example :
    chunk_text
        (List.replicate 2500 'a' ++ nn ++ List.replicate 2500 'b' ++ nn
          ++ List.replicate 2500 'c') "m".toList 6000 =
      [(List.replicate 2500 'a' ++ nn ++ List.replicate 2500 'b', "m".toList),
       (List.replicate 2500 'c', "m".toList)] ∧
    (List.replicate 2500 'a' ++ nn ++ List.replicate 2500 'b' : Str).length = 5002 ∧
    5000 < 5002 ∧ 5002 ≤ 6000 := by
  refine ⟨chunk_text_three_replicates 2500 2500 2500 6000 'a' 'b' 'c' "m".toList
    (by norm_num) (by norm_num) (by norm_num) (by decide) (by decide) (by decide)
    (by decide) (by decide) (by decide) (by norm_num) (by norm_num), ?_, by norm_num, by norm_num⟩
  simp only [List.length_append, List.length_replicate, nn, List.length_cons, List.length_nil]

/-- Counterexample for C6 as stated: with three paragraphs of 2500 characters
each, separators included (2498 + 2, 2498 + 2, 2500: 7500 chars in total), the
first emitted chunk holds paragraphs 1 and 2 but is 4998 characters long, not
over 5000. -/
theorem C6_counterexample :
    chunk_text
        (List.replicate 2498 'a' ++ nn ++ List.replicate 2498 'b' ++ nn
          ++ List.replicate 2500 'c') "m".toList 6000 =
      [(List.replicate 2498 'a' ++ nn ++ List.replicate 2498 'b', "m".toList),
       (List.replicate 2500 'c', "m".toList)] ∧
    (List.replicate 2498 'a' ++ nn ++ List.replicate 2498 'b' : Str).length = 4998 ∧
    ¬ 5000 < (List.replicate 2498 'a' ++ nn ++ List.replicate 2498 'b' : Str).length := by
  have hl : (List.replicate 2498 'a' ++ nn ++ List.replicate 2498 'b' : Str).length = 4998 := by
    simp only [List.length_append, List.length_replicate, nn, List.length_cons, List.length_nil]
  refine ⟨chunk_text_three_replicates 2498 2498 2500 6000 'a' 'b' 'c' "m".toList
    (by norm_num) (by norm_num) (by norm_num) (by decide) (by decide) (by decide)
    (by decide) (by decide) (by decide) (by norm_num) (by norm_num), hl, ?_⟩
  rw [hl]
  norm_num

/-- C5: the noise predicate rejects every 79-character input regardless of
content; rejects every input whose trimmed content is one of the sentinels
`NO_REPLY` / `HEARTBEAT_OK`; rejects every input in which the
knowledge-graph-context opening tag occurs wholly within the first 100
characters; and the tag-based rule does not fire when no occurrence of the
tag starts before character 150. -/
theorem C5_is_noise_cases (t : Str) :
    (t.length = 79 → is_noise t = true) ∧
    ((strip t = noReplyStr ∨ strip t = heartbeatStr) → is_noise t = true) ∧
    (containsSub kgcOpen (t.take 100) = true → is_noise t = true) ∧
    ((∀ i < 150, isPre kgcOpen (t.drop i) = false) →
      containsSub kgcOpen (t.take 100) = false) := by
  refine ⟨?_, ?_, ?_, ?_⟩
  · intro h
    unfold is_noise
    rw [if_pos (by rw [h]; norm_num [MIN_MSG_LEN])]
  · intro h
    unfold is_noise
    by_cases h1 : t.length < MIN_MSG_LEN
    · rw [if_pos h1]
    · rw [if_neg h1]
      by_cases h2 : (isPre [lbraceChar] (strip t) && containsSub toolCallIdKey t) = true
      · rw [if_pos h2]
      · rw [if_neg h2]
        by_cases h3 : containsSub kgcOpen (t.take 100) = true
        · rw [if_pos h3]
        · rw [if_neg h3, if_pos h]
  · intro h
    unfold is_noise
    by_cases h1 : t.length < MIN_MSG_LEN
    · rw [if_pos h1]
    · rw [if_neg h1]
      by_cases h2 : (isPre [lbraceChar] (strip t) && containsSub toolCallIdKey t) = true
      · rw [if_pos h2]
      · rw [if_neg h2, if_pos h]
  · intro h
    by_contra hc
    rw [Bool.not_eq_false] at hc
    obtain ⟨n, hn⟩ := containsSub_iff_exists_drop.mp hc
    have hkne : kgcOpen ≠ [] := by decide
    have hlt : n < 100 := by
      by_contra hge
      rw [List.drop_eq_nil_of_le
        (le_trans (List.length_take_le 100 t) (Nat.le_of_not_lt hge))] at hn
      exact hkne (eq_nil_of_isPre_nil hn)
    rw [List.drop_take 100 n t] at hn
    have h2 : isPre kgcOpen (t.drop n) = true := isPre_of_take hn
    rw [h n (by omega)] at h2
    exact absurd h2 (by decide)

/-- Witness for C5: the four behaviours at concrete inputs (a 79-char string,
a padded sentinel, a tag starting at character 50, and a tag starting at
character 150). -/
theorem C5_witness :
    is_noise (List.replicate 79 'q') = true ∧
    is_noise (List.replicate 80 ' ' ++ noReplyStr) = true ∧
    is_noise (List.replicate 50 'x' ++ kgcOpen ++ List.replicate 30 'x') = true ∧
    containsSub kgcOpen ((List.replicate 150 'x' ++ kgcOpen).take 100) = false :=
  ⟨(C5_is_noise_cases _).1 (by decide),
   (C5_is_noise_cases _).2.1 (by decide),
   (C5_is_noise_cases _).2.2.1 (by decide),
   (C5_is_noise_cases _).2.2.2 (by decide)⟩

/-! ### Memory-file, session and insertion lemmas -/

theorem pmfChunks_eq_flatMap (readF : Str → Option Str) (relP : Str → Str) (k : Nat) :
    ∀ (l seen : List Str),
    pmfChunks readF relP k seen l = (pmfProcessed seen l).flatMap (fileOut readF relP k) := by
  intro l
  induction l with
  | nil => intro seen; rfl
  | cons fp rest ih =>
    intro seen
    simp only [pmfChunks, pmfProcessed]
    by_cases h : fp ∈ seen
    · rw [if_pos h, if_pos h, ih]
    · rw [if_neg h, if_neg h, List.flatMap_cons, ih]

theorem not_mem_pmfProcessed {f : Str} : ∀ (l seen : List Str), f ∈ seen →
    f ∉ pmfProcessed seen l := by
  intro l
  induction l with
  | nil => intro seen _; simp [pmfProcessed]
  | cons fp rest ih =>
    intro seen hf
    simp only [pmfProcessed]
    by_cases h : fp ∈ seen
    · rw [if_pos h]
      exact ih seen hf
    · rw [if_neg h]
      intro hmem
      rcases List.mem_cons.mp hmem with rfl | hmem'
      · exact h hf
      · exact ih (fp :: seen) (List.mem_cons_of_mem fp hf) hmem'

theorem count_pmfProcessed {f : Str} : ∀ (l seen : List Str), f ∉ seen →
    (pmfProcessed seen l).count f = if f ∈ l then 1 else 0 := by
  intro l
  induction l with
  | nil => intro seen _; simp [pmfProcessed]
  | cons fp rest ih =>
    intro seen hf
    simp only [pmfProcessed]
    by_cases h : fp ∈ seen
    · rw [if_pos h, ih seen hf]
      have hne : f ≠ fp := fun he => hf (he ▸ h)
      simp [List.mem_cons, hne]
    · rw [if_neg h]
      by_cases hffp : f = fp
      · subst hffp
        rw [List.count_cons_self]
        rw [List.count_eq_zero.mpr (not_mem_pmfProcessed rest (f :: seen) (by simp))]
        simp [List.mem_cons]
      · rw [List.count_cons_of_ne hffp, ih (fp :: seen) (by simp [hffp, hf])]
        simp [List.mem_cons, hffp]

/-- C7: memory-file enumeration deduplicates by path: a path occurring in the
(possibly overlapping) glob results is processed exactly once, and the
produced chunk list is exactly the concatenation of the per-file chunk sets of
the deduplicated path list, so each file's text contributes to exactly one
chunk set. -/
theorem C7_dedup (globResults : List (List Str)) (readF : Str → Option Str)
    (relP : Str → Str) (k : Nat) (f : Str) (hf : f ∈ globResults.flatten) :
    (pmfProcessed [] globResults.flatten).count f = 1 ∧
    process_memory_files globResults readF relP k
      = (pmfProcessed [] globResults.flatten).flatMap (fileOut readF relP k) := by
  refine ⟨?_, pmfChunks_eq_flatMap readF relP k _ []⟩
  rw [count_pmfProcessed _ [] (by simp), if_pos hf]

/-- Witness for C7: one file matched by two overlapping patterns. -/
theorem C7_witness :
    ("a.md".toList ∈ ([["a.md".toList], ["a.md".toList]] : List (List Str)).flatten) ∧
    (pmfProcessed [] ([["a.md".toList], ["a.md".toList]] : List (List Str)).flatten).count
      "a.md".toList = 1 ∧
    process_memory_files [["a.md".toList], ["a.md".toList]] (fun _ => none) (fun p => p) 6000
      = (pmfProcessed [] ([["a.md".toList], ["a.md".toList]] : List (List Str)).flatten).flatMap
          (fileOut (fun _ => none) (fun p => p) 6000) :=
  ⟨by decide, C7_dedup [["a.md".toList], ["a.md".toList]] (fun _ => none) (fun p => p) 6000
    "a.md".toList (by decide)⟩

theorem insertGo_spec (execOk : Nat → Bool) :
    ∀ (chunks : List (Str × Str)) (i acc : Nat),
    insertGo execOk i acc chunks
      = acc + ((List.range' i chunks.length).filter (fun j => execOk j)).length := by
  intro chunks
  induction chunks with
  | nil =>
    intro i acc
    simp [insertGo]
  | cons c rest ih =>
    intro i acc
    simp only [insertGo, List.length_cons, List.range'_succ, List.filter_cons]
    rw [ih (i + 1)]
    by_cases h : execOk i = true
    · rw [if_pos h, if_pos h, List.length_cons]
      omega
    · rw [if_neg h, if_neg h]

/-- C8: in the insertion loop, a failed insert does not abort the batch —
every chunk's insert is attempted (the successes are counted over the index
range of the whole batch) — and the reported final count equals the number of
inserts that actually succeeded, which can be less than the batch size, as
the closed three-chunk example with a failure on the middle chunk shows. -/
theorem C8_insert_partial_failure :
    (∀ (chunks : List (Str × Str)) (execOk : Nat → Bool),
      insert_observations chunks execOk
        = ((List.range' 0 chunks.length).filter (fun j => execOk j)).length ∧
      insert_observations chunks execOk ≤ chunks.length) ∧
    insert_observations [([], []), ([], []), ([], [])] (fun j => j != 1) = 2 ∧
    (2 : Nat) < 3 := by
  refine ⟨?_, by decide, by norm_num⟩
  intro chunks execOk
  have h := insertGo_spec execOk chunks 0 0
  rw [insert_observations, h]
  refine ⟨by omega, ?_⟩
  calc 0 + ((List.range' 0 chunks.length).filter (fun j => execOk j)).length
      ≤ (List.range' 0 chunks.length).length := by
        have := List.length_filter_le (fun j => execOk j) (List.range' 0 chunks.length)
        omega
    _ = chunks.length := by simp

/-- C10: `chunk_text` on the empty string returns exactly one chunk with empty
text for every source label and limit; hence a memory file that passes the raw
minimum-length check but whose cleaned text is empty still contributes exactly
one chunk with empty text. -/
theorem C10_empty_chunk :
    (∀ (source : Str) (k : Nat), chunk_text [] source k = [([], source)]) ∧
    (∀ (readF : Str → Option Str) (relP : Str → Str) (k : Nat) (fp raw : Str),
      readF fp = some raw → MIN_MSG_LEN ≤ (strip raw).length → clean_text raw = [] →
      fileOut readF relP k fp = [([], memoryPrefix ++ relP fp)]) := by
  have hbase : ∀ (source : Str) (k : Nat), chunk_text [] source k = [([], source)] := by
    intro source k
    unfold chunk_text
    rw [if_pos (by simp)]
  refine ⟨hbase, ?_⟩
  intro readF relP k fp raw hread hlen hclean
  simp only [fileOut, hread]
  rw [if_neg (Nat.not_lt.mpr hlen), hclean]
  exact hbase _ _

/-- Witness for C10: a memory file that is one large knowledge-graph-context
block (130 raw characters, empty after cleaning) yields one empty chunk. -/
theorem C10_witness :
    MIN_MSG_LEN ≤ (strip (kgcOpen ++ List.replicate 80 'z' ++ kgcClose)).length ∧
    clean_text (kgcOpen ++ List.replicate 80 'z' ++ kgcClose) = [] ∧
    fileOut (fun _ => some (kgcOpen ++ List.replicate 80 'z' ++ kgcClose)) (fun p => p) 6000
        "a.md".toList = [([], memoryPrefix ++ "a.md".toList)] :=
  ⟨by decide, by decide,
   C10_empty_chunk.2 (fun _ => some (kgcOpen ++ List.replicate 80 'z' ++ kgcClose))
     (fun p => p) 6000 "a.md".toList (kgcOpen ++ List.replicate 80 'z' ++ kgcClose)
     rfl (by decide) (by decide)⟩

/-- C9: a session message is kept for the aggregated document exactly when its
role is `user` or `assistant`, its raw extracted text is not judged noise, and
its cleaned text still reaches the 80-character minimum — the second length
filter applied after cleaning. -/
theorem C9_message_filter (m : Msg) :
    (msgStep m).isSome = true ↔
      ((m.role = userRole ∨ m.role = assistantRole) ∧
       is_noise (extract_text_from_content m.content) = false ∧
       MIN_MSG_LEN ≤ (clean_text (extract_text_from_content m.content)).length) := by
  unfold msgStep
  by_cases h1 : m.role ≠ userRole ∧ m.role ≠ assistantRole
  · rw [if_pos h1]
    simp only [Option.isSome_none, Bool.false_eq_true, false_iff]
    rintro ⟨hrole, _, _⟩
    rcases hrole with h | h
    · exact h1.1 h
    · exact h1.2 h
  · rw [if_neg h1]
    have hrole : m.role = userRole ∨ m.role = assistantRole := by
      rcases not_and_or.mp h1 with h | h
      · exact Or.inl (not_not.mp h)
      · exact Or.inr (not_not.mp h)
    by_cases h2 : is_noise (extract_text_from_content m.content) = true
    · rw [if_pos h2]
      simp only [Option.isSome_none, Bool.false_eq_true, false_iff]
      rintro ⟨_, hnoise, _⟩
      rw [h2] at hnoise
      cases hnoise
    · rw [if_neg h2]
      rw [Bool.not_eq_true] at h2
      by_cases h3 : MIN_MSG_LEN ≤ (clean_text (extract_text_from_content m.content)).length
      · rw [if_pos h3]
        simp only [Option.isSome_some, true_iff]
        exact ⟨hrole, h2, h3⟩
      · rw [if_neg h3]
        simp only [Option.isSome_none, Bool.false_eq_true, false_iff]
        rintro ⟨_, _, hlen⟩
        exact h3 hlen

/-- Witness for C9: a plain 100-char user message is kept; a user message
whose raw text passes the noise predicate (206 chars, tag not inside the
first 100 characters) but cleans to 76 characters is dropped by the second
length filter. -/
theorem C9_witness :
    (msgStep ⟨userRole, Content.str (List.replicate 100 'x')⟩).isSome = true ∧
    (msgStep ⟨userRole, Content.str (List.replicate 76 'x' ++ kgcOpen
        ++ List.replicate 80 'y' ++ kgcClose)⟩).isSome ≠ true :=
  ⟨(C9_message_filter ⟨userRole, Content.str (List.replicate 100 'x')⟩).mpr (by decide),
   fun h => absurd ((C9_message_filter ⟨userRole, Content.str (List.replicate 76 'x'
     ++ kgcOpen ++ List.replicate 80 'y' ++ kgcClose)⟩).mp h) (by decide)⟩

/-! ### Cleaning-transform lemmas -/

theorem containsSub_of_isPre {p l : Str} (h : isPre p l = true) : containsSub p l = true :=
  containsSub_of_isPre_drop 0 h

theorem isPre_single_iff {a : Char} {X : Str} :
    isPre [a] X = true ↔ X.head? = some a := by
  cases X with
  | nil => simp [isPre]
  | cons x xs =>
    simp only [isPre, isPre_nil, Bool.and_true, beq_iff_eq, List.head?_cons, Option.some.injEq]
    exact eq_comm

theorem take_two_nl {rest : Str} (h : rest.take 2 = [nlChar, nlChar]) :
    ∃ rest₂, rest = nlChar :: nlChar :: rest₂ := by
  cases rest with
  | nil => simp at h
  | cons a r1 =>
    cases r1 with
    | nil => simp at h
    | cons b r2 =>
      refine ⟨r2, ?_⟩
      simp only [List.take_succ_cons, List.take_zero, List.cons.injEq, and_true] at h
      rw [h.1, h.2]

theorem all_eq_append_comm {a : Char} : ∀ (tw : List Char), (∀ x ∈ tw, x = a) →
    tw ++ [a] = a :: tw := by
  intro tw
  induction tw with
  | nil => intro _; rfl
  | cons x tw' ih =>
    intro h
    have hx : x = a := h x (by simp)
    subst hx
    simp only [List.cons_append, ih (fun y hy => h y (by simp [hy]))]

theorem collapseAux_head? (fuel : Nat) (t : Str) (h : t.length ≤ fuel) :
    (collapseAux fuel t).head? = t.head? := by
  cases t with
  | nil => cases fuel <;> rfl
  | cons c rest =>
    cases fuel with
    | zero => simp at h
    | succ f =>
      simp only [collapseAux]
      by_cases hb : c = nlChar ∧ rest.take 2 = [nlChar, nlChar]
      · rw [if_pos hb]
        simp [hb.1]
      · rw [if_neg hb]
        simp

theorem collapse_prefix_inv : ∀ (fuel : Nat) (t p : Str),
    isPre p (collapseAux fuel t) = true →
    containsSub nn p = true ∨ isPre p t = true := by
  intro fuel
  induction fuel with
  | zero =>
    intro t p h
    cases t with
    | nil =>
      right
      rw [eq_nil_of_isPre_nil h]
      exact isPre_nil _
    | cons c rest => exact Or.inr h
  | succ f ih =>
    intro t p h
    cases t with
    | nil =>
      right
      rw [eq_nil_of_isPre_nil h]
      exact isPre_nil _
    | cons c rest =>
      simp only [collapseAux] at h
      by_cases hb : c = nlChar ∧ rest.take 2 = [nlChar, nlChar]
      · rw [if_pos hb] at h
        cases p with
        | nil => exact Or.inr (isPre_nil _)
        | cons a p' =>
          rcases isPre_cons_iff.mp h with ⟨ha, h2⟩
          cases p' with
          | nil =>
            right
            exact isPre_cons_iff.mpr ⟨ha.trans hb.1.symm, isPre_nil rest⟩
          | cons b p'' =>
            rcases isPre_cons_iff.mp h2 with ⟨hbnl, _⟩
            left
            apply containsSub_of_isPre
            show isPre [nlChar, nlChar] (a :: b :: p'') = true
            exact isPre_cons_iff.mpr ⟨ha.symm, isPre_cons_iff.mpr ⟨hbnl.symm, isPre_nil _⟩⟩
      · rw [if_neg hb] at h
        cases p with
        | nil => exact Or.inr (isPre_nil _)
        | cons a p' =>
          rcases isPre_cons_iff.mp h with ⟨ha, h2⟩
          rcases ih rest p' h2 with hnn | hpre
          · exact Or.inl (containsSub_cons a hnn)
          · exact Or.inr (isPre_cons_iff.mpr ⟨ha, hpre⟩)

theorem collapse_infix_inv : ∀ (fuel : Nat) (t p : Str),
    containsSub p (collapseAux fuel t) = true →
    containsSub nn p = true ∨ containsSub p t = true := by
  intro fuel
  induction fuel with
  | zero =>
    intro t p h
    cases t with
    | nil => exact Or.inr h
    | cons c rest => exact Or.inr h
  | succ f ih =>
    intro t p h
    cases t with
    | nil => exact Or.inr h
    | cons c rest =>
      simp only [collapseAux] at h
      by_cases hb : c = nlChar ∧ rest.take 2 = [nlChar, nlChar]
      · rw [if_pos hb] at h
        simp only [containsSub, Bool.or_eq_true] at h
        rcases h with h1 | h2 | h3
        · cases p with
          | nil => exact Or.inr (containsSub_nil_pat _)
          | cons a p' =>
            rcases isPre_cons_iff.mp h1 with ⟨ha, h1'⟩
            cases p' with
            | nil =>
              right
              exact containsSub_of_isPre (isPre_cons_iff.mpr ⟨ha.trans hb.1.symm, isPre_nil _⟩)
            | cons b p'' =>
              rcases isPre_cons_iff.mp h1' with ⟨hbnl, _⟩
              left
              exact containsSub_of_isPre
                (show isPre [nlChar, nlChar] (a :: b :: p'') = true from
                  isPre_cons_iff.mpr ⟨ha.symm, isPre_cons_iff.mpr ⟨hbnl.symm, isPre_nil _⟩⟩)
        · cases p with
          | nil => exact Or.inr (containsSub_nil_pat _)
          | cons a p' =>
            rcases isPre_cons_iff.mp h2 with ⟨ha, hp'⟩
            rcases collapse_prefix_inv f (rest.dropWhile (· = nlChar)) p' hp' with hnn | hpre
            · exact Or.inl (containsSub_cons a hnn)
            · right
              obtain ⟨rest₂, hrest⟩ := take_two_nl hb.2
              have hdw : rest.dropWhile (· = nlChar) = rest₂.dropWhile (· = nlChar) := by
                rw [hrest]
                simp [List.dropWhile_cons]
              have htw : ∀ x ∈ rest₂.takeWhile (· = nlChar), x = nlChar := by
                intro x hx
                exact of_decide_eq_true (List.mem_takeWhile_imp (p := (· = nlChar)) hx)
              have hsplit : rest₂.takeWhile (· = nlChar) ++ rest₂.dropWhile (· = nlChar)
                  = rest₂ := List.takeWhile_append_dropWhile _ _
              have hcomm := all_eq_append_comm (rest₂.takeWhile (· = nlChar)) htw
              have key : rest₂.takeWhile (· = nlChar) ++ (nlChar :: rest₂.dropWhile (· = nlChar))
                  = nlChar :: rest₂ := by
                rw [show (nlChar :: rest₂.dropWhile (· = nlChar) : Str)
                    = [nlChar] ++ rest₂.dropWhile (· = nlChar) from rfl]
                rw [← List.append_assoc, hcomm, List.cons_append, hsplit]
              have htt : c :: rest = ([nlChar, nlChar] ++ rest₂.takeWhile (· = nlChar))
                  ++ (nlChar :: rest₂.dropWhile (· = nlChar)) := by
                rw [hb.1, hrest, List.append_assoc, key]
                rfl
              rw [htt]
              apply containsSub_of_isPre_drop
                (([nlChar, nlChar] ++ rest₂.takeWhile (· = nlChar)).length)
              rw [List.drop_left]
              rw [hdw] at hpre
              exact isPre_cons_iff.mpr ⟨ha, hpre⟩
        · rcases ih (rest.dropWhile (· = nlChar)) p h3 with hnn | hsub
          · exact Or.inl hnn
          · right
            refine containsSub_infix_mono ?_ hsub
            exact ((List.dropWhile_suffix _).trans (List.suffix_cons c rest)).isInfix
      · rw [if_neg hb] at h
        simp only [containsSub, Bool.or_eq_true] at h
        rcases h with h1 | h2
        · cases p with
          | nil => exact Or.inr (containsSub_nil_pat _)
          | cons a p' =>
            rcases isPre_cons_iff.mp h1 with ⟨ha, hp'⟩
            rcases collapse_prefix_inv f rest p' hp' with hnn | hpre
            · exact Or.inl (containsSub_cons a hnn)
            · exact Or.inr (containsSub_of_isPre (isPre_cons_iff.mpr ⟨ha, hpre⟩))
        · rcases ih rest p h2 with hnn | hsub
          · exact Or.inl hnn
          · exact Or.inr (containsSub_cons c hsub)

theorem head?_of_isPre_cons {a : Char} {as X : Str} (h : isPre (a :: as) X = true) :
    X.head? = some a := by
  cases X with
  | nil => simp [isPre] at h
  | cons x xs =>
    rcases isPre_cons_iff.mp h with ⟨ha, _⟩
    rw [List.head?_cons, ha]

theorem collapse_no_triple : ∀ (fuel : Nat) (t : Str), t.length ≤ fuel →
    containsSub [nlChar, nlChar, nlChar] (collapseAux fuel t) = false := by
  intro fuel
  induction fuel with
  | zero =>
    intro t h
    rw [List.eq_nil_of_length_eq_zero (Nat.le_zero.mp h)]
    rfl
  | succ f ih =>
    intro t h
    cases t with
    | nil => rfl
    | cons c rest =>
      have hrlen : rest.length ≤ f := by
        simp only [List.length_cons] at h
        omega
      simp only [collapseAux]
      by_cases hb : c = nlChar ∧ rest.take 2 = [nlChar, nlChar]
      · rw [if_pos hb]
        have hdlen : (rest.dropWhile (· = nlChar)).length ≤ f :=
          le_trans (List.Sublist.length_le (List.dropWhile_sublist _)) hrlen
        have hXhead : ∀ x, (collapseAux f (rest.dropWhile (· = nlChar))).head? = some x
            → x ≠ nlChar := by
          intro x hx
          rw [collapseAux_head? f _ hdlen] at hx
          exact of_decide_eq_false (head?_dropWhile_false hx)
        simp only [containsSub]
        rw [Bool.or_eq_false_iff, Bool.or_eq_false_iff]
        refine ⟨?_, ?_, ih _ hdlen⟩
        · by_contra hcon
          rw [Bool.not_eq_false] at hcon
          rcases isPre_cons_iff.mp hcon with ⟨_, hcon2⟩
          rcases isPre_cons_iff.mp hcon2 with ⟨_, hcon3⟩
          exact hXhead nlChar (isPre_single_iff.mp hcon3) rfl
        · by_contra hcon
          rw [Bool.not_eq_false] at hcon
          rcases isPre_cons_iff.mp hcon with ⟨_, hcon2⟩
          exact hXhead nlChar (head?_of_isPre_cons hcon2) rfl
      · rw [if_neg hb]
        simp only [containsSub]
        rw [Bool.or_eq_false_iff]
        refine ⟨?_, ih rest hrlen⟩
        by_contra hcon
        rw [Bool.not_eq_false] at hcon
        rcases isPre_cons_iff.mp hcon with ⟨hc, hcon2⟩
        have hYhead := head?_of_isPre_cons hcon2
        rw [collapseAux_head? f rest hrlen] at hYhead
        cases rest with
        | nil => simp at hYhead
        | cons d rest₂ =>
          simp only [List.head?_cons, Option.some.injEq] at hYhead
          have hr2 : rest₂.take 1 ≠ [nlChar] := by
            intro hx
            apply hb
            refine ⟨hc.symm, ?_⟩
            rw [List.take_succ_cons, hx, hYhead]
          cases f with
          | zero =>
            simp only [List.length_cons] at hrlen
            omega
          | succ f2 =>
            have hcond : ¬(d = nlChar ∧ rest₂.take 2 = [nlChar, nlChar]) := by
              rintro ⟨_, hx⟩
              obtain ⟨r3, hr3⟩ := take_two_nl hx
              apply hr2
              rw [hr3]
              rfl
            have hYeq : collapseAux (f2 + 1) (d :: rest₂) = d :: collapseAux f2 rest₂ := by
              simp only [collapseAux]
              rw [if_neg hcond]
            rw [hYeq] at hcon2
            rcases isPre_cons_iff.mp hcon2 with ⟨_, hcon3⟩
            have hh := isPre_single_iff.mp hcon3
            have hr2len : rest₂.length ≤ f2 := by
              simp only [List.length_cons] at hrlen
              omega
            rw [collapseAux_head? f2 rest₂ hr2len] at hh
            apply hr2
            cases rest₂ with
            | nil => simp at hh
            | cons e r3 =>
              simp only [List.head?_cons, Option.some.injEq] at hh
              rw [List.take_succ_cons, List.take_zero, hh]

theorem collapseAux_id_of_no_triple : ∀ (fuel : Nat) (t : Str), t.length ≤ fuel →
    containsSub [nlChar, nlChar, nlChar] t = false → collapseAux fuel t = t := by
  intro fuel
  induction fuel with
  | zero =>
    intro t h _
    rw [List.eq_nil_of_length_eq_zero (Nat.le_zero.mp h)]
    rfl
  | succ f ih =>
    intro t h hno
    cases t with
    | nil => rfl
    | cons c rest =>
      simp only [collapseAux]
      have hb : ¬(c = nlChar ∧ rest.take 2 = [nlChar, nlChar]) := by
        rintro ⟨hc, hr⟩
        obtain ⟨rest₂, hrest⟩ := take_two_nl hr
        have hpre : isPre [nlChar, nlChar, nlChar] (c :: rest) = true := by
          rw [hc, hrest]
          exact isPre_cons_iff.mpr ⟨rfl, isPre_cons_iff.mpr ⟨rfl,
            isPre_cons_iff.mpr ⟨rfl, isPre_nil _⟩⟩⟩
        rw [containsSub_of_isPre hpre] at hno
        cases hno
      rw [if_neg hb]
      have hrest_no : containsSub [nlChar, nlChar, nlChar] rest = false := by
        by_contra hx
        rw [Bool.not_eq_false] at hx
        rw [containsSub_cons c hx] at hno
        cases hno
      rw [ih rest (by simp only [List.length_cons] at h; omega) hrest_no]

theorem blockMatch_none_of {openT closeT t : Str} (h : isPre openT t = false) :
    blockMatch openT closeT t = none := by
  simp [blockMatch, h]

theorem jsonMetaMatch_none_of {t : Str} (h : isPre jsonOpen t = false) :
    jsonMetaMatch t = none := by
  simp [jsonMetaMatch, h]

theorem reSubAux_id (m : Str → Option Nat) (repl : Str) :
    ∀ (fuel : Nat) (t : Str), (∀ n, m (t.drop n) = none) → reSubAux m repl fuel t = t := by
  intro fuel
  induction fuel with
  | zero =>
    intro t _
    cases t <;> rfl
  | succ f ih =>
    intro t hm
    cases t with
    | nil => rfl
    | cons c rest =>
      simp only [reSubAux]
      have h0 : m (c :: rest) = none := hm 0
      rw [h0]
      exact congrArg (c :: ·) (ih rest (fun n => hm (n + 1)))

theorem reSub_block_id {openT closeT repl t : Str} (h : containsSub openT t = false) :
    reSub (blockMatch openT closeT) repl t = t := by
  apply reSubAux_id
  intro n
  apply blockMatch_none_of
  by_contra hx
  rw [Bool.not_eq_false] at hx
  rw [containsSub_of_isPre_drop n hx] at h
  cases h

theorem reSub_jsonMeta_id {repl t : Str} (h : containsSub jsonOpen t = false) :
    reSub jsonMetaMatch repl t = t := by
  apply reSubAux_id
  intro n
  apply jsonMetaMatch_none_of
  by_contra hx
  rw [Bool.not_eq_false] at hx
  rw [containsSub_of_isPre_drop n hx] at h
  cases h

theorem containsSub_false_strip {p t : Str} (h : containsSub p t = false) :
    containsSub p (strip t) = false := by
  by_contra hx
  rw [Bool.not_eq_false] at hx
  rw [containsSub_infix_mono (strip_contained t) hx] at h
  cases h

theorem containsSub_false_collapse {p t : Str} (hp : containsSub nn p = false)
    (h : containsSub p t = false) : containsSub p (collapse t) = false := by
  by_contra hx
  rw [Bool.not_eq_false] at hx
  rcases collapse_infix_inv t.length t p hx with hnn | hsub
  · rw [hp] at hnn
    cases hnn
  · rw [h] at hsub
    cases hsub

/-- C4 (amended): the cleaning transform is idempotent on every input that
contains no occurrence of the block openers it removes — the
knowledge-graph-context opening tag, the fenced-json-metadata opener
(backticks-json, newline, brace), and the function-results opening tag.  On
such inputs one pass is newline-collapsing plus strip, which is idempotent. -/
theorem C4_clean_idempotent_marker_free (t : Str)
    (h1 : containsSub kgcOpen t = false)
    (h2 : containsSub jsonOpen t = false)
    (h3 : containsSub frOpen t = false) :
    clean_text (clean_text t) = clean_text t := by
  have hclean : clean_text t = strip (collapse t) := by
    show strip (collapse (reSub (blockMatch frOpen frClose) toolOutputRepl
      (reSub jsonMetaMatch [] (reSub (blockMatch kgcOpen kgcClose) [] t)))) = strip (collapse t)
    rw [reSub_block_id h1, reSub_jsonMeta_id h2, reSub_block_id h3]
  have hk : containsSub nn kgcOpen = false := by decide
  have hj : containsSub nn jsonOpen = false := by decide
  have hf : containsSub nn frOpen = false := by decide
  have hc1 : containsSub kgcOpen (strip (collapse t)) = false :=
    containsSub_false_strip (containsSub_false_collapse hk h1)
  have hc2 : containsSub jsonOpen (strip (collapse t)) = false :=
    containsSub_false_strip (containsSub_false_collapse hj h2)
  have hc3 : containsSub frOpen (strip (collapse t)) = false :=
    containsSub_false_strip (containsSub_false_collapse hf h3)
  have hnotriple : containsSub [nlChar, nlChar, nlChar] (strip (collapse t)) = false :=
    containsSub_false_strip (collapse_no_triple t.length t (Nat.le_refl _))
  rw [hclean]
  show strip (collapse (reSub (blockMatch frOpen frClose) toolOutputRepl
    (reSub jsonMetaMatch [] (reSub (blockMatch kgcOpen kgcClose) [] (strip (collapse t))))))
    = strip (collapse t)
  rw [reSub_block_id hc1, reSub_jsonMeta_id hc2, reSub_block_id hc3]
  rw [show collapse (strip (collapse t)) = strip (collapse t) from
    collapseAux_id_of_no_triple _ _ (Nat.le_refl _) hnotriple]
  exact strip_idem _

/-- Witness for C4: a marker-free concrete input. -/
theorem C4_witness :
    containsSub kgcOpen "hello  world\n\n\n\nbye ".toList = false ∧
    containsSub jsonOpen "hello  world\n\n\n\nbye ".toList = false ∧
    containsSub frOpen "hello  world\n\n\n\nbye ".toList = false ∧
    clean_text (clean_text "hello  world\n\n\n\nbye ".toList)
      = clean_text "hello  world\n\n\n\nbye ".toList :=
  ⟨by decide, by decide, by decide,
   C4_clean_idempotent_marker_free "hello  world\n\n\n\nbye ".toList
     (by decide) (by decide) (by decide)⟩

/-- Counterexample for C4 as stated: removing a knowledge-graph-context block
can splice its surroundings into a new block, so a second pass removes more.
On this input the first pass leaves one whole block, the second deletes it. -/
theorem C4_counterexample :
    clean_text (clean_text ("<knowledge-graph"
      ++ "<knowledge-graph-context>A</knowledge-graph-context>"
      ++ "-context>x</knowledge-graph-context>").toList)
    ≠ clean_text ("<knowledge-graph"
      ++ "<knowledge-graph-context>A</knowledge-graph-context>"
      ++ "-context>x</knowledge-graph-context>").toList := by
  decide
